import Mathlib

/-!
# Verification of the election-data aggregation engine

A shallow embedding of `presidentialElection.cpp`: the record store,
the candidate aggregator (`getCandidateSummaries`), the state-filtered
aggregation (`showStateResults`), the fixed 51-entry state table and
best-state selection (`showCandidateResults`), and county search
(`showCountySearch`).  Strings are embedded as `List Char`; C++ `int`
as `Int`; the `double` percentage and bar computations as exact
rational / integer arithmetic (exactly equivalent on the `int` range,
see the doc comments of `pctOf` and `barCount`).
-/

namespace Election

/-- Strings are modelled as lists of characters. -/
abbrev Str := List Char

/-- Embeds `toUpper` (presidentialElection.cpp:149-152): uppercase every
character. -/
def toUpper (s : Str) : Str := s.map Char.toUpper

/-- Embeds `haystack.find(needle) != string::npos`: `needle` occurs as a
contiguous substring of `haystack`. -/
def containsSub (hay need : Str) : Bool := decide (need <:+: hay)

/-- Embeds the `Votes` class (presidentialElection.cpp:35-55): one record of
the store. -/
structure Votes where
  state : Str
  county : Str
  candidate : Str
  party : Str
  voteCount : Int
deriving DecidableEq, Repr

/-- Embeds the `CandidateSummary` class (presidentialElection.cpp:58-69). -/
structure CandidateSummary where
  name : Str
  party : Str
  totalVotes : Int
deriving DecidableEq, Repr

/-- The comparator of `CandidateSummary::operator<`
(presidentialElection.cpp:66-68), phrased as the non-strict order the
sorted output satisfies: `a` may precede `b` iff
`b.totalVotes ≤ a.totalVotes`. -/
def summaryRel (a b : CandidateSummary) : Prop := b.totalVotes ≤ a.totalVotes

instance : DecidableRel summaryRel :=
  fun a b => inferInstanceAs (Decidable (b.totalVotes ≤ a.totalVotes))

instance : IsTotal CandidateSummary summaryRel :=
  ⟨fun a b => le_total b.totalVotes a.totalVotes⟩

instance : IsTrans CandidateSummary summaryRel :=
  ⟨fun _ _ _ h1 h2 => le_trans h2 h1⟩

/-- Embeds the inner loop of `getCandidateSummaries`
(presidentialElection.cpp:158-171): add one vote record to the summary
list, accumulating into the first entry with a matching name, or
appending a fresh entry at the end when none matches. -/
def addVote : List CandidateSummary → Votes → List CandidateSummary
  | [], v => [⟨v.candidate, v.party, v.voteCount⟩]
  | s :: rest, v =>
    if s.name = v.candidate then ⟨s.name, s.party, s.totalVotes + v.voteCount⟩ :: rest
    else s :: addVote rest v

/-- The unsorted accumulation pass of `getCandidateSummaries`
(presidentialElection.cpp:158-171). -/
def accumulate (votes : List Votes) : List CandidateSummary := votes.foldl addVote []

/-- Embeds `getCandidateSummaries` (presidentialElection.cpp:155-174):
accumulate per-candidate totals, then sort with the
`CandidateSummary::operator<` comparator.  The `std::sort` call is
modelled by a deterministic comparison sort agreeing with the
comparator; everything `std::sort` actually promises about the call is
captured relationally by `sortAdmissible` below, and only properties
that are invariant under the choice of sorted permutation (or that
compare two runs of this identical function) are read off this
deterministic model. -/
def getCandidateSummaries (votes : List Votes) : List CandidateSummary :=
  (accumulate votes).insertionSort summaryRel

/-- The contract of the `std::sort` call (presidentialElection.cpp:172):
the call may leave *any* reordering of the accumulated summaries that
satisfies the comparator — `std::sort` fixes sortedness and
permutation only, and is not a stable sort, so the relative order of
equal-total entries is unspecified.  `sortAdmissible l out` says `out`
is one of the admissible results of sorting `l`. -/
def sortAdmissible (l out : List CandidateSummary) : Prop :=
  out.Perm l ∧ out.Pairwise summaryRel

/-- The admissible results of `getCandidateSummaries`
(presidentialElection.cpp:155-174) under the `std::sort` contract:
any sorted permutation of the accumulated per-candidate totals. -/
def aggregateAdmissible (votes : List Votes) (out : List CandidateSummary) : Prop :=
  sortAdmissible (accumulate votes) out

/-- Embeds `showNationalResults` (presidentialElection.cpp:188-196): the
ranked national list is exactly `getCandidateSummaries`. -/
def nationalResults (votes : List Votes) : List CandidateSummary :=
  getCandidateSummaries votes

/-- Embeds `showDataOverview` (presidentialElection.cpp:177-185): record
count and total vote sum. -/
def overview (votes : List Votes) : Nat × Int :=
  (votes.length, votes.foldl (fun acc v => acc + v.voteCount) 0)

/-- Embeds the grouping loop of `showStateResults`
(presidentialElection.cpp:205-221): accumulate only the records whose
(stored) state field equals `state`. -/
def stateAccumulate (votes : List Votes) (state : Str) : List CandidateSummary :=
  votes.foldl (fun acc v => if v.state = state then addVote acc v else acc) []

/-- Embeds `showStateResults` (presidentialElection.cpp:199-222): the user
input is uppercased, records are filtered by exact comparison of the
stored state field against that uppercased input, grouped, and sorted
with the same comparator as `getCandidateSummaries`. -/
def stateResults (votes : List Votes) (stateInput : Str) : List CandidateSummary :=
  (stateAccumulate votes (toUpper stateInput)).insertionSort summaryRel

/-- Embeds `int bars = round(summary.totalVotes / 150000.0)`
(presidentialElection.cpp:226).  The `double` division of an `int` by
`150000.0` followed by C `round` (half away from zero) computes, for
every value in the `int` range, exactly the half-away-from-zero
rounding of the rational `totalVotes / 150000`: exact halves
`75000 * (2k+1) / 150000` are represented exactly, and any other
quotient is at least `1 / 300000` from a half while the division error
is below `2 ^ 31 / 150000 * 2 ^ -53`.  So the bar count is embedded as
that exact integer rounding. -/
def barCount (t : Int) : Int :=
  if 0 ≤ t then (t + 75000) / 150000 else -(((-t) + 75000) / 150000)

/-- The (summary, bar count) rows displayed by `showStateResults`
(presidentialElection.cpp:224-228). -/
def stateResultsBars (votes : List Votes) (stateInput : Str) :
    List (CandidateSummary × Int) :=
  (stateResults votes stateInput).map (fun s => (s, barCount s.totalVotes))

/-- Embeds the `STATES` constant (presidentialElection.cpp:18-30): the
fixed 51-entry jurisdiction enumeration. -/
def STATES : List Str :=
  ["ALABAMA", "ALASKA", "ARIZONA", "ARKANSAS", "CALIFORNIA",
   "COLORADO", "CONNECTICUT", "DELAWARE", "FLORIDA", "GEORGIA",
   "HAWAII", "IDAHO", "ILLINOIS", "INDIANA", "IOWA",
   "KANSAS", "KENTUCKY", "LOUISIANA", "MAINE", "MARYLAND",
   "MASSACHUSETTS", "MICHIGAN", "MINNESOTA", "MISSISSIPPI", "MISSOURI",
   "MONTANA", "NEBRASKA", "NEVADA", "NEW HAMPSHIRE", "NEW JERSEY",
   "NEW MEXICO", "NEW YORK", "NORTH CAROLINA", "NORTH DAKOTA", "OHIO",
   "OKLAHOMA", "OREGON", "PENNSYLVANIA", "RHODE ISLAND", "SOUTH CAROLINA",
   "SOUTH DAKOTA", "TENNESSEE", "TEXAS", "UTAH", "VERMONT",
   "VIRGINIA", "WASHINGTON", "WASHINGTON DC", "WEST VIRGINIA", "WISCONSIN",
   "WYOMING"].map String.toList

/-- One entry of the `stateResults` vector of `showCandidateResults`
(presidentialElection.cpp:246): jurisdiction name, votes for the target
candidate, total votes. -/
structure Tally where
  stateName : Str
  candVotes : Int
  totalVotes : Int
deriving DecidableEq, Repr

/-- The zero-initialised 51-entry table (presidentialElection.cpp:246-251). -/
def initTable : List Tally := STATES.map (fun s => ⟨s, 0, 0⟩)

/-- Embeds the tallying loop body of `showCandidateResults`
(presidentialElection.cpp:253-263): the record updates the first table
entry whose name equals its state field (the `break` stops after it),
adding its count to that entry's total, and also to the candidate count
when its candidate equals the target name; a record matching no entry
changes nothing. -/
def addToTable (name : Str) : List Tally → Votes → List Tally
  | [], _ => []
  | t :: rest, v =>
    if v.state = t.stateName then
      ⟨t.stateName, t.candVotes + (if v.candidate = name then v.voteCount else 0),
        t.totalVotes + v.voteCount⟩ :: rest
    else t :: addToTable name rest v

/-- The full state table of `showCandidateResults`
(presidentialElection.cpp:246-263). -/
def buildStateTable (votes : List Votes) (name : Str) : List Tally :=
  votes.foldl (addToTable name) initTable

/-- Embeds the candidate-name resolution of `showCandidateResults`
(presidentialElection.cpp:238-244): the candidate of the first record
whose uppercased name contains the (already uppercased) search term as
a substring; empty when none matches. -/
def resolveCandidate : List Votes → Str → Str
  | [], _ => []
  | v :: rest, searchUC =>
    if containsSub (toUpper v.candidate) searchUC then v.candidate
    else resolveCandidate rest searchUC

/-- The percentage displayed for one table row
(presidentialElection.cpp:273-275): `100 * candVotes / totalVotes` when
`totalVotes > 0`, else `0.0`.  The `double` value `(100.0 * c) / t` is
embedded as the exact rational. -/
def pctOf (t : Tally) : ℚ :=
  if 0 < t.totalVotes then (100 * t.candVotes : ℚ) / (t.totalVotes : ℚ) else 0

/-- Embeds the best-state update of `showCandidateResults`
(presidentialElection.cpp:265-280): inside the `totalVotes > 0` guard,
a strictly larger percentage replaces the running best. -/
def bestFold (acc : ℚ × Str) (t : Tally) : ℚ × Str :=
  if 0 < t.totalVotes then
    if acc.1 < pctOf t then (pctOf t, t.stateName) else acc
  else acc

/-- The best percentage and best state name computed by
`showCandidateResults` (presidentialElection.cpp:265-285), starting
from `bestPercentage = 0.0` and an empty `bestState`. -/
def bestState (table : List Tally) : ℚ × Str := table.foldl bestFold (0, [])

/-- Embeds `showCandidateResults` (presidentialElection.cpp:232-286) as a
query: resolved name, state table, and (best percentage, best state). -/
def candidateResults (votes : List Votes) (searchInput : Str) :
    Str × List Tally × (ℚ × Str) :=
  let name := resolveCandidate votes (toUpper searchInput)
  let table := buildStateTable votes name
  (name, table, bestState table)

/-- Embeds `showCountySearch` (presidentialElection.cpp:289-302): every
record whose uppercased county contains the uppercased search term, in
input order. -/
def countySearch (votes : List Votes) (searchInput : Str) : List Votes :=
  votes.filter (fun v => containsSub (toUpper v.county) (toUpper searchInput))

/-- The total recorded for name `n` in a summary list: the first entry
with that name (the accumulation loop only ever touches the first). -/
def totalFor : List CandidateSummary → Str → Int
  | [], _ => 0
  | s :: rest, n => if s.name = n then s.totalVotes else totalFor rest n

/-- The index of the first record whose candidate name is `n`. -/
def firstRecordIdx (votes : List Votes) (n : Str) : Nat :=
  votes.findIdx (fun v => v.candidate = n)

/-- The (candidate votes, total votes) pair recorded for state name `s`
in a table: the first entry with that name (the tallying loop only
ever touches the first). -/
def tallyFor : List Tally → Str → Int × Int
  | [], _ => (0, 0)
  | t :: rest, s => if t.stateName = s then (t.candVotes, t.totalVotes) else tallyFor rest s

/-- Sample records for concrete witnesses (drawn from the worked example
of the specification). -/
def vA : Votes := ⟨"OHIO".toList, "Cuyahoga".toList, "A".toList, "PartyX".toList, 100⟩

def vB : Votes := ⟨"OHIO".toList, "Franklin".toList, "A".toList, "PartyX".toList, 50⟩

def vC : Votes := ⟨"OHIO".toList, "Cuyahoga".toList, "B".toList, "PartyY".toList, 30⟩

def votesEx : List Votes := [vA, vB, vC]

/-- Concrete summary used by witnesses: candidate `A` of `votesEx`. -/
def cEx : CandidateSummary := ⟨"A".toList, "PartyX".toList, 150⟩

/-- A record with a mixed-case jurisdiction field. -/
def vMixed : Votes := ⟨"Ohio".toList, "Cuyahoga".toList, "A".toList, "PartyX".toList, 5⟩

/-- A record whose jurisdiction is not in the 51-entry enumeration. -/
def vBad : Votes := ⟨"GUAM".toList, "AGANA".toList, "A".toList, "PartyX".toList, 7⟩

/-- The Ohio tally of `votesEx` for candidate `A`. -/
def tOhio : Tally := ⟨"OHIO".toList, 150, 180⟩

/-- A single Alabama record for candidate `A`. -/
def vAla : Votes := ⟨"ALABAMA".toList, "MOBILE".toList, "A".toList, "PartyX".toList, 5⟩

/-- Two records with tied vote counts, for the stability witness. -/
def vTie1 : Votes := ⟨"OHIO".toList, "X".toList, "A".toList, "P".toList, 5⟩

def vTie2 : Votes := ⟨"OHIO".toList, "Y".toList, "B".toList, "Q".toList, 5⟩

def votesTie : List Votes := [vTie1, vTie2]

def sTie1 : CandidateSummary := ⟨"A".toList, "P".toList, 5⟩

def sTie2 : CandidateSummary := ⟨"B".toList, "Q".toList, 5⟩

end Election

namespace Election

/-! ## Properties of the candidate accumulation loop -/

theorem map_name_addVote (s : List CandidateSummary) (v : Votes) :
    (addVote s v).map (fun c => c.name) =
      if v.candidate ∈ s.map (fun c => c.name) then s.map (fun c => c.name)
      else s.map (fun c => c.name) ++ [v.candidate] := by
  induction s with
  | nil => simp [addVote]
  | cons s rest ih =>
    by_cases h : s.name = v.candidate
    · simp [addVote, h]
    · simp only [addVote, if_neg h, List.map_cons, ih, List.mem_cons]
      by_cases h2 : v.candidate ∈ rest.map (fun c => c.name)
      · simp [h2]
      · simp [h2, Ne.symm h]

theorem sumTotals_addVote (s : List CandidateSummary) (v : Votes) :
    ((addVote s v).map (fun c => c.totalVotes)).sum
      = (s.map (fun c => c.totalVotes)).sum + v.voteCount := by
  induction s with
  | nil => simp [addVote]
  | cons s rest ih =>
    by_cases h : s.name = v.candidate
    · simp [addVote, h]; ring
    · simp [addVote, h, ih]; ring

theorem totalFor_addVote (s : List CandidateSummary) (v : Votes) (n : Str) :
    totalFor (addVote s v) n
      = totalFor s n + (if v.candidate = n then v.voteCount else 0) := by
  induction s with
  | nil =>
    by_cases h : v.candidate = n <;> simp [addVote, totalFor, h]
  | cons s rest ih =>
    by_cases h : s.name = v.candidate
    · simp only [addVote, if_pos h, totalFor]
      by_cases hn : s.name = n
      · have hv : v.candidate = n := h ▸ hn
        simp [hn, hv]
      · have : ¬ v.candidate = n := fun hc => hn (h.trans hc)
        simp [hn, this]
    · simp only [addVote, if_neg h, totalFor]
      by_cases hn : s.name = n
      · have : ¬ v.candidate = n := fun hc => h (hn.trans hc.symm)
        simp [hn, this]
      · simp [hn, ih]

theorem totalFor_foldl (votes : List Votes) (s : List CandidateSummary) (n : Str) :
    totalFor (votes.foldl addVote s) n
      = totalFor s n
        + ((votes.filter (fun v => v.candidate = n)).map (fun v => v.voteCount)).sum := by
  induction votes generalizing s with
  | nil => simp
  | cons v rest ih =>
    by_cases h : v.candidate = n
    · simp [List.foldl_cons, ih, totalFor_addVote, h]; ring
    · simp [List.foldl_cons, ih, totalFor_addVote, h]

theorem sumTotals_foldl (votes : List Votes) (s : List CandidateSummary) :
    (((votes.foldl addVote s)).map (fun c => c.totalVotes)).sum
      = (s.map (fun c => c.totalVotes)).sum
        + (votes.map (fun v => v.voteCount)).sum := by
  induction votes generalizing s with
  | nil => simp
  | cons v rest ih =>
    simp [List.foldl_cons, ih, sumTotals_addVote]; ring

theorem mem_name_addVote_of_mem {s : List CandidateSummary} {n : Str} (v : Votes)
    (h : n ∈ s.map (fun c => c.name)) :
    n ∈ (addVote s v).map (fun c => c.name) := by
  rw [map_name_addVote]
  by_cases h2 : v.candidate ∈ s.map (fun c => c.name) <;> simp [h2, h]

theorem self_mem_name_addVote (s : List CandidateSummary) (v : Votes) :
    v.candidate ∈ (addVote s v).map (fun c => c.name) := by
  rw [map_name_addVote]
  by_cases h2 : v.candidate ∈ s.map (fun c => c.name) <;> simp [h2]

theorem mem_name_foldl_of_mem {s : List CandidateSummary} {n : Str}
    (votes : List Votes) (h : n ∈ s.map (fun c => c.name)) :
    n ∈ ((votes.foldl addVote s)).map (fun c => c.name) := by
  induction votes generalizing s with
  | nil => simpa using h
  | cons v rest ih => exact ih (mem_name_addVote_of_mem v h)

theorem mem_name_foldl_self {votes : List Votes} {v : Votes}
    (hv : v ∈ votes) (s : List CandidateSummary) :
    v.candidate ∈ ((votes.foldl addVote s)).map (fun c => c.name) := by
  induction votes generalizing s with
  | nil => cases hv
  | cons w rest ih =>
    rcases List.mem_cons.1 hv with h | h
    · subst h
      exact mem_name_foldl_of_mem rest (self_mem_name_addVote s v)
    · exact ih h _

theorem nodup_name_addVote {s : List CandidateSummary} (v : Votes)
    (h : (s.map (fun c => c.name)).Nodup) :
    ((addVote s v).map (fun c => c.name)).Nodup := by
  rw [map_name_addVote]
  by_cases h2 : v.candidate ∈ s.map (fun c => c.name)
  · simpa [h2] using h
  · simp only [if_neg h2]
    simp [List.nodup_append, h, h2]

theorem nodup_name_foldl (votes : List Votes) {s : List CandidateSummary}
    (h : (s.map (fun c => c.name)).Nodup) :
    (((votes.foldl addVote s)).map (fun c => c.name)).Nodup := by
  induction votes generalizing s with
  | nil => simpa using h
  | cons v rest ih => exact ih (nodup_name_addVote v h)

theorem foldl_voteCount (votes : List Votes) (acc : Int) :
    votes.foldl (fun a v => a + v.voteCount) acc
      = acc + (votes.map (fun v => v.voteCount)).sum := by
  induction votes generalizing acc with
  | nil => simp
  | cons v rest ih => simp [ih]; ring

theorem totalFor_of_mem {s : List CandidateSummary} {c : CandidateSummary}
    (hnd : (s.map (fun c => c.name)).Nodup) (hc : c ∈ s) :
    totalFor s c.name = c.totalVotes := by
  induction s with
  | nil => cases hc
  | cons s rest ih =>
    rcases List.mem_cons.1 hc with h | h
    · subst h; simp [totalFor]
    · have hne : s.name ≠ c.name := by
        intro he
        have : c.name ∈ rest.map (fun c => c.name) :=
          List.mem_map.2 ⟨c, h, rfl⟩
        simp [List.nodup_cons, he] at hnd
        exact hnd.1 _ h rfl
      have hnd' : (rest.map (fun c => c.name)).Nodup := by
        simp [List.nodup_cons] at hnd; exact hnd.2
      simp [totalFor, hne, ih hnd' h]

theorem perm_national (votes : List Votes) :
    (nationalResults votes).Perm (accumulate votes) :=
  List.perm_insertionSort summaryRel (accumulate votes)

/-- **C1.** For every record list, the sum of `totalVotes` over
`nationalResults` equals the sum of `voteCount` over all records (and
so does the overview total); candidate names in the result are
pairwise distinct, every record's candidate appears, and each
candidate's total is exactly the sum of the vote counts of the records
bearing that candidate's name. -/
theorem claim_C1 (votes : List Votes) :
    ((nationalResults votes).map (fun c => c.totalVotes)).sum
        = (votes.map (fun v => v.voteCount)).sum
    ∧ (overview votes).2 = (votes.map (fun v => v.voteCount)).sum
    ∧ ((nationalResults votes).map (fun c => c.name)).Nodup
    ∧ (∀ v ∈ votes, v.candidate ∈ (nationalResults votes).map (fun c => c.name))
    ∧ ∀ c ∈ nationalResults votes,
        c.totalVotes
          = ((votes.filter (fun v => v.candidate = c.name)).map
              (fun v => v.voteCount)).sum := by
  have perm := perm_national votes
  have hnames : ((nationalResults votes).map (fun c => c.name)).Perm
      ((accumulate votes).map (fun c => c.name)) := perm.map _
  have hnd : ((accumulate votes).map (fun c => c.name)).Nodup :=
    nodup_name_foldl votes (by simp)
  refine ⟨?_, ?_, ?_, ?_, ?_⟩
  · have := (perm.map (fun c => c.totalVotes)).sum_eq
    rw [this]
    simpa [accumulate] using sumTotals_foldl votes []
  · simpa [overview] using foldl_voteCount votes 0
  · exact hnames.nodup_iff.2 hnd
  · intro v hv
    exact hnames.mem_iff.2 (mem_name_foldl_self hv [])
  · intro c hc
    have hc' : c ∈ accumulate votes := perm.subset hc
    have h1 := totalFor_of_mem hnd hc'
    have h2 := totalFor_foldl votes [] c.name
    rw [← h1]
    simp only [accumulate]
    simpa [totalFor] using h2

/-- Witness for C1 at the specification's worked example. -/
theorem claim_C1_witness :
    cEx ∈ nationalResults votesEx
    ∧ cEx.totalVotes
        = ((votesEx.filter (fun v => v.candidate = cEx.name)).map
            (fun v => v.voteCount)).sum :=
  ⟨by decide, (claim_C1 votesEx).2.2.2.2 cEx (by decide)⟩

/-! ## The state-results grouping versus the aggregator -/

theorem foldl_state_filter (votes : List Votes) (st : Str) (s : List CandidateSummary) :
    votes.foldl (fun acc v => if v.state = st then addVote acc v else acc) s
      = (votes.filter (fun v => v.state = st)).foldl addVote s := by
  induction votes generalizing s with
  | nil => rfl
  | cons v rest ih =>
    by_cases h : v.state = st <;> simp [List.filter_cons, h, ih]

theorem stateAccumulate_eq_filter (votes : List Votes) (st : Str) :
    stateAccumulate votes st = accumulate (votes.filter (fun v => v.state = st)) :=
  foldl_state_filter votes st []

theorem stateResults_eq_filter (votes : List Votes) (input : Str) :
    stateResults votes input
      = getCandidateSummaries (votes.filter (fun v => v.state = toUpper input)) := by
  rw [stateResults, getCandidateSummaries, stateAccumulate_eq_filter]

/-- **C7.** The per-candidate grouping loop of `showStateResults` is
equivalent to `getCandidateSummaries` applied to the sub-list of
records of the selected jurisdiction: both the unsorted accumulations
and the final sorted results coincide. -/
theorem claim_C7 (votes : List Votes) (input : Str) :
    stateResults votes input
        = getCandidateSummaries (votes.filter (fun v => v.state = toUpper input))
    ∧ ∀ J : Str, stateAccumulate votes J
        = accumulate (votes.filter (fun v => v.state = J)) :=
  ⟨stateResults_eq_filter votes input, fun J => stateAccumulate_eq_filter votes J⟩

/-- Counterexample to **C3** as stated: a stored jurisdiction `Ohio` is
*not* included when the user enters `ohio`, although the two are equal
case-insensitively — the code uppercases only the user input and
compares it to the stored field with `==`. -/
theorem claim_C3_counterexample :
    toUpper vMixed.state = toUpper ("ohio".toList)
    ∧ stateResults [vMixed] ("ohio".toList) = [] := by
  constructor
  · decide
  · decide

/-- **C3 (amended).** `stateResults` includes exactly the records whose
stored jurisdiction field is exactly (case-sensitively) equal to the
uppercased filter; when every stored jurisdiction field is already
uppercase, that inclusion test coincides with case-insensitive
equality with the filter. -/
theorem claim_C3_amended (votes : List Votes) (f : Str)
    (h : ∀ v ∈ votes, toUpper v.state = v.state) :
    stateResults votes f
        = getCandidateSummaries (votes.filter (fun v => v.state = toUpper f))
    ∧ ∀ v ∈ votes, (v.state = toUpper f ↔ toUpper v.state = toUpper f) := by
  refine ⟨stateResults_eq_filter votes f, fun v hv => ?_⟩
  rw [h v hv]

/-- Witness for the amended C3 on an all-uppercase store. -/
theorem claim_C3_amended_witness :
    stateResults votesEx ("ohio".toList)
        = getCandidateSummaries
            (votesEx.filter (fun v => v.state = toUpper ("ohio".toList)))
    ∧ ∀ v ∈ votesEx,
        (v.state = toUpper ("ohio".toList) ↔ toUpper v.state = toUpper ("ohio".toList)) :=
  claim_C3_amended votesEx ("ohio".toList) (by decide)

/-! ## Properties of the fixed state table -/

theorem map_stateName_addToTable (name : Str) (table : List Tally) (v : Votes) :
    (addToTable name table v).map (fun t => t.stateName)
      = table.map (fun t => t.stateName) := by
  induction table with
  | nil => rfl
  | cons t rest ih =>
    by_cases h : v.state = t.stateName <;> simp [addToTable, h, ih]

theorem map_stateName_foldl (votes : List Votes) (name : Str) (table : List Tally) :
    ((votes.foldl (addToTable name) table).map (fun t => t.stateName))
      = table.map (fun t => t.stateName) := by
  induction votes generalizing table with
  | nil => rfl
  | cons v rest ih => simp [List.foldl_cons, ih, map_stateName_addToTable]

theorem map_stateName_initTable :
    initTable.map (fun t => t.stateName) = STATES := by
  simp [initTable, List.map_map, Function.comp_def]

theorem map_stateName_buildStateTable (votes : List Votes) (name : Str) :
    (buildStateTable votes name).map (fun t => t.stateName) = STATES := by
  rw [buildStateTable, map_stateName_foldl, map_stateName_initTable]

theorem states_nodup : STATES.Nodup := by decide

theorem addToTable_of_not_mem (name : Str) {table : List Tally} (v : Votes)
    (h : v.state ∉ table.map (fun t => t.stateName)) :
    addToTable name table v = table := by
  induction table with
  | nil => rfl
  | cons t rest ih =>
    simp only [List.map_cons, List.mem_cons] at h
    push_neg at h
    simp [addToTable, h.1, ih h.2]

theorem tallyFor_addToTable_of_ne (name : Str) (table : List Tally) (v : Votes)
    {s : Str} (h : v.state ≠ s) :
    tallyFor (addToTable name table v) s = tallyFor table s := by
  induction table with
  | nil => rfl
  | cons t rest ih =>
    by_cases h2 : v.state = t.stateName
    · have h3 : t.stateName ≠ s := h2 ▸ h
      simp [addToTable, h2, tallyFor, h3]
    · by_cases h3 : t.stateName = s <;> simp [addToTable, h2, tallyFor, h3, ih, h]

theorem tallyFor_foldl_of_no_vote (votes : List Votes) (name : Str)
    (table : List Tally) {s : Str} (h : ∀ v ∈ votes, v.state ≠ s) :
    tallyFor (votes.foldl (addToTable name) table) s = tallyFor table s := by
  induction votes generalizing table with
  | nil => rfl
  | cons v rest ih =>
    simp only [List.foldl_cons]
    rw [ih _ (fun w hw => h w (List.mem_cons_of_mem _ hw)),
      tallyFor_addToTable_of_ne _ _ _ (h v (List.mem_cons_self _ _))]

theorem tallyFor_initTable (s : Str) : tallyFor initTable s = (0, 0) := by
  have : ∀ l : List Str, tallyFor (l.map (fun n => ⟨n, 0, 0⟩)) s = (0, 0) := by
    intro l
    induction l with
    | nil => rfl
    | cons n rest ih => by_cases h : n = s <;> simp [tallyFor, h, ih]
  exact this STATES

theorem tallyFor_of_mem_nodup {table : List Tally} {t : Tally}
    (hnd : (table.map (fun t => t.stateName)).Nodup) (ht : t ∈ table) :
    tallyFor table t.stateName = (t.candVotes, t.totalVotes) := by
  induction table with
  | nil => cases ht
  | cons u rest ih =>
    rcases List.mem_cons.1 ht with h | h
    · subst h; simp [tallyFor]
    · have hne : u.stateName ≠ t.stateName := by
        intro he
        simp [List.nodup_cons] at hnd
        exact hnd.1 _ h he.symm
      have hnd' : (rest.map (fun t => t.stateName)).Nodup := by
        simp [List.nodup_cons] at hnd; exact hnd.2
      simp [tallyFor, hne, ih hnd' h]

/-- **C6.** The table built by `showCandidateResults` keeps the fixed
51-entry enumeration as its name column; an enumeration entry matched
by no record keeps candidate votes 0 and total votes 0; and a record
whose jurisdiction matches no enumeration entry changes nothing
(it is silently dropped, without error). -/
theorem claim_C6 (votes : List Votes) (name : Str) :
    (buildStateTable votes name).map (fun t => t.stateName) = STATES
    ∧ (∀ t ∈ buildStateTable votes name,
        (∀ v ∈ votes, v.state ≠ t.stateName) → t.candVotes = 0 ∧ t.totalVotes = 0)
    ∧ ∀ (l₁ l₂ : List Votes) (v : Votes), v.state ∉ STATES →
        buildStateTable (l₁ ++ v :: l₂) name = buildStateTable (l₁ ++ l₂) name := by
  refine ⟨map_stateName_buildStateTable votes name, ?_, ?_⟩
  · intro t ht hnov
    have hnd : ((buildStateTable votes name).map (fun t => t.stateName)).Nodup := by
      rw [map_stateName_buildStateTable]; exact states_nodup
    have h1 := tallyFor_of_mem_nodup hnd ht
    have h2 : tallyFor (buildStateTable votes name) t.stateName = (0, 0) := by
      rw [buildStateTable, tallyFor_foldl_of_no_vote votes name initTable hnov,
        tallyFor_initTable]
    rw [h2] at h1
    exact ⟨congrArg Prod.fst h1.symm, congrArg Prod.snd h1.symm⟩
  · intro l₁ l₂ v hv
    rw [buildStateTable, buildStateTable, List.foldl_append, List.foldl_append,
      List.foldl_cons]
    have hmem : v.state ∉ ((l₁.foldl (addToTable name) initTable).map
        (fun t => t.stateName)) := by
      rw [map_stateName_foldl, map_stateName_initTable]; exact hv
    rw [addToTable_of_not_mem name v hmem]

/-- Witness for C6: a `GUAM` record is dropped from the table. -/
theorem claim_C6_witness :
    vBad.state ∉ STATES
    ∧ buildStateTable ([vA] ++ vBad :: []) ("A".toList)
        = buildStateTable ([vA] ++ []) ("A".toList) :=
  ⟨by decide, (claim_C6 [] ("A".toList)).2.2 [vA] [] vBad (by decide)⟩

theorem tally_bounds_addToTable (name : Str) {table : List Tally} (v : Votes)
    (hv : 0 ≤ v.voteCount)
    (h : ∀ t ∈ table, 0 ≤ t.candVotes ∧ t.candVotes ≤ t.totalVotes) :
    ∀ t ∈ addToTable name table v, 0 ≤ t.candVotes ∧ t.candVotes ≤ t.totalVotes := by
  induction table with
  | nil => intro t ht; cases ht
  | cons u rest ih =>
    intro t ht
    by_cases h2 : v.state = u.stateName
    · simp only [addToTable, if_pos h2, List.mem_cons] at ht
      rcases ht with rfl | ht
      · obtain ⟨h3, h4⟩ := h u (List.mem_cons_self _ _)
        by_cases h5 : v.candidate = name <;> simp [h5] <;> omega
      · exact h t (List.mem_cons_of_mem _ ht)
    · simp only [addToTable, if_neg h2, List.mem_cons] at ht
      rcases ht with rfl | ht
      · exact h t (List.mem_cons_self _ _)
      · exact ih (fun w hw => h w (List.mem_cons_of_mem _ hw)) t ht

theorem tally_bounds_foldl (votes : List Votes) (name : Str) {table : List Tally}
    (hv : ∀ v ∈ votes, 0 ≤ v.voteCount)
    (h : ∀ t ∈ table, 0 ≤ t.candVotes ∧ t.candVotes ≤ t.totalVotes) :
    ∀ t ∈ votes.foldl (addToTable name) table,
      0 ≤ t.candVotes ∧ t.candVotes ≤ t.totalVotes := by
  induction votes generalizing table with
  | nil => simpa using h
  | cons v rest ih =>
    simp only [List.foldl_cons]
    exact ih (fun w hw => hv w (List.mem_cons_of_mem _ hw))
      (tally_bounds_addToTable name v (hv v (List.mem_cons_self _ _)) h)

/-- **C10.** When all vote counts are non-negative, every jurisdiction
tally of the table built by `showCandidateResults` (for any search
term, hence any resolved candidate) satisfies
`0 ≤ candVotes ≤ totalVotes`. -/
theorem claim_C10 (votes : List Votes) (term : Str)
    (hv : ∀ v ∈ votes, 0 ≤ v.voteCount) :
    ∀ t ∈ buildStateTable votes (resolveCandidate votes (toUpper term)),
      0 ≤ t.candVotes ∧ t.candVotes ≤ t.totalVotes := by
  apply tally_bounds_foldl votes _ hv
  intro t ht
  rw [initTable] at ht
  obtain ⟨s, _, rfl⟩ := List.mem_map.1 ht
  exact ⟨le_refl 0, le_refl 0⟩

/-- Witness for C10 at the worked example. -/
theorem claim_C10_witness :
    tOhio ∈ buildStateTable votesEx (resolveCandidate votesEx (toUpper ("a".toList)))
    ∧ (0 ≤ tOhio.candVotes ∧ tOhio.candVotes ≤ tOhio.totalVotes) :=
  ⟨by decide, claim_C10 votesEx ("a".toList) (by decide) tOhio (by decide)⟩

/-! ## The bar-chart rounding -/

theorem ediv_eq_round (t : Int) :
    (t + 75000) / 150000 = round ((t : ℚ) / 150000) := by
  rw [round_eq]
  have h1 : ((t : ℚ) / 150000 + 1 / 2)
      = ((2 * t + 150000 : Int) : ℚ) / ((300000 : Nat) : ℚ) := by
    push_cast
    ring
  rw [h1, Rat.floor_intCast_div_natCast]
  have h2 : (2 * t + 150000 : Int) = 2 * (t + 75000) := by ring
  have h3 : ((300000 : Nat) : Int) = 2 * 150000 := by norm_num
  rw [h2, h3, Int.mul_ediv_mul_of_pos _ _ (by norm_num : (0 : Int) < 2)]

/-- **C8.** Every bar count shown by `showStateResults` equals the
half-away-from-zero rounding of `totalVotes / 150000` (stated through
Mathlib's `round`, which rounds halves up, so negating for negative
inputs yields exactly round-half-away-from-zero); in particular
`75000` votes yield one bar and `74999` votes yield none. -/
theorem claim_C8 (votes : List Votes) (input : Str) :
    (∀ p ∈ stateResultsBars votes input,
        p.2 = if 0 ≤ p.1.totalVotes
              then round ((p.1.totalVotes : ℚ) / 150000)
              else -round (((-p.1.totalVotes : Int) : ℚ) / 150000))
    ∧ barCount 75000 = 1 ∧ barCount 74999 = 0 := by
  refine ⟨?_, by decide, by decide⟩
  intro p hp
  rw [stateResultsBars] at hp
  obtain ⟨s, _, rfl⟩ := List.mem_map.1 hp
  by_cases h : 0 ≤ s.totalVotes
  · simp only [barCount, if_pos h]
    exact ediv_eq_round s.totalVotes
  · simp only [barCount, if_neg h]
    rw [ediv_eq_round (-s.totalVotes)]

/-- Witness for C8: candidate `A` of the worked example gets
`round(150 / 150000) = 0` bars. -/
theorem claim_C8_witness :
    (cEx, (0 : Int)) ∈ stateResultsBars votesEx ("ohio".toList)
    ∧ (cEx, (0 : Int)).2
        = if 0 ≤ (cEx, (0 : Int)).1.totalVotes
          then round (((cEx, (0 : Int)).1.totalVotes : ℚ) / 150000)
          else -round (((-(cEx, (0 : Int)).1.totalVotes : Int) : ℚ) / 150000) :=
  ⟨by decide, (claim_C8 votesEx ("ohio".toList)).1 (cEx, 0) (by decide)⟩

/-! ## Search-term behaviour: empty and no-match terms -/

theorem containsSub_iff {hay need : Str} : containsSub hay need = true ↔ need <:+: hay := by
  simp [containsSub]

/-- Counterexample to **C5** as stated: with a non-empty store, the
*empty* search term does not yield an empty/zero result.  The empty
string is a substring of every name, so candidate resolution returns
the first record's candidate and the county search returns every
record. -/
theorem claim_C5_counterexample :
    resolveCandidate votesEx (toUpper []) = "A".toList
    ∧ "A".toList ≠ ([] : Str)
    ∧ countySearch votesEx [] = votesEx
    ∧ votesEx ≠ [] :=
  ⟨by decide, by decide, by decide, by decide⟩

theorem candVotes_zero_addToTable (name : Str) {table : List Tally} (v : Votes)
    (hv : v.candidate ≠ name) (h : ∀ t ∈ table, t.candVotes = 0) :
    ∀ t ∈ addToTable name table v, t.candVotes = 0 := by
  induction table with
  | nil => intro t ht; cases ht
  | cons u rest ih =>
    intro t ht
    by_cases h2 : v.state = u.stateName
    · simp only [addToTable, if_pos h2, List.mem_cons] at ht
      rcases ht with rfl | ht
      · simp [hv, h u (List.mem_cons_self _ _)]
      · exact h t (List.mem_cons_of_mem _ ht)
    · simp only [addToTable, if_neg h2, List.mem_cons] at ht
      rcases ht with rfl | ht
      · exact h t (List.mem_cons_self _ _)
      · exact ih (fun w hw => h w (List.mem_cons_of_mem _ hw)) t ht

theorem candVotes_zero_foldl (votes : List Votes) (name : Str) {table : List Tally}
    (hv : ∀ v ∈ votes, v.candidate ≠ name) (h : ∀ t ∈ table, t.candVotes = 0) :
    ∀ t ∈ votes.foldl (addToTable name) table, t.candVotes = 0 := by
  induction votes generalizing table with
  | nil => simpa using h
  | cons v rest ih =>
    simp only [List.foldl_cons]
    exact ih (fun w hw => hv w (List.mem_cons_of_mem _ hw))
      (candVotes_zero_addToTable name v (hv v (List.mem_cons_self _ _)) h)

theorem resolveCandidate_eq_nil {votes : List Votes} {s : Str}
    (h : ∀ v ∈ votes, containsSub (toUpper v.candidate) s = false) :
    resolveCandidate votes s = [] := by
  induction votes with
  | nil => rfl
  | cons v rest ih =>
    rw [resolveCandidate, if_neg]
    · exact ih (fun w hw => h w (List.mem_cons_of_mem _ hw))
    · simp [h v (List.mem_cons_self _ _)]

/-- **C5 (amended).** A search term matching *no* record yields an
empty/zero result and never an error: candidate resolution returns the
empty name, every `candVotes` in the resulting table is 0 (provided no
stored record carries an empty candidate name), and the county search
returns the empty list.  (An *empty* search term, by contrast, matches
every record: resolution returns the first record's candidate and the
county search returns all records.) -/
theorem claim_C5_amended (votes : List Votes) (t : Str)
    (hcand : ∀ v ∈ votes, containsSub (toUpper v.candidate) (toUpper t) = false)
    (hcounty : ∀ v ∈ votes, containsSub (toUpper v.county) (toUpper t) = false)
    (hne : ∀ v ∈ votes, v.candidate ≠ []) :
    resolveCandidate votes (toUpper t) = []
    ∧ (∀ tl ∈ buildStateTable votes (resolveCandidate votes (toUpper t)),
        tl.candVotes = 0)
    ∧ countySearch votes t = [] := by
  have hres : resolveCandidate votes (toUpper t) = [] := resolveCandidate_eq_nil hcand
  refine ⟨hres, ?_, ?_⟩
  · rw [hres, buildStateTable]
    apply candVotes_zero_foldl votes [] hne
    intro tl htl
    rw [initTable] at htl
    obtain ⟨s, _, rfl⟩ := List.mem_map.1 htl
    rfl
  · rw [countySearch, List.filter_eq_nil_iff]
    intro v hv
    simp [hcounty v hv]

/-- Witness for the amended C5 with the no-match term `ZZZ`. -/
theorem claim_C5_amended_witness :
    resolveCandidate votesEx (toUpper ("ZZZ".toList)) = []
    ∧ (∀ tl ∈ buildStateTable votesEx (resolveCandidate votesEx (toUpper ("ZZZ".toList))),
        tl.candVotes = 0)
    ∧ countySearch votesEx ("ZZZ".toList) = [] :=
  claim_C5_amended votesEx ("ZZZ".toList) (by decide) (by decide) (by decide)

/-! ## Idempotence of candidate-name resolution -/

theorem resolveCandidate_contains {votes : List Votes} {s : Str}
    (h : resolveCandidate votes s ≠ []) :
    containsSub (toUpper (resolveCandidate votes s)) s = true := by
  induction votes with
  | nil => exact absurd rfl h
  | cons v rest ih =>
    by_cases h2 : containsSub (toUpper v.candidate) s = true
    · rw [resolveCandidate, if_pos h2]
      exact h2
    · rw [resolveCandidate, if_neg h2]
      rw [resolveCandidate, if_neg h2] at h
      exact ih h

/-- **C9.** Candidate-name resolution is idempotent: if resolving a
search term yields a non-empty name `N`, then resolving `N` itself
yields `N` again. -/
theorem claim_C9 (votes : List Votes) (t N : Str)
    (hres : resolveCandidate votes (toUpper t) = N) (hN : N ≠ []) :
    resolveCandidate votes (toUpper N) = N := by
  induction votes with
  | nil => exact absurd hres.symm hN
  | cons v rest ih =>
    by_cases h2 : containsSub (toUpper v.candidate) (toUpper t) = true
    · rw [resolveCandidate, if_pos h2] at hres
      subst hres
      rw [resolveCandidate, if_pos]
      exact containsSub_iff.2 (List.infix_refl _)
    · rw [resolveCandidate, if_neg h2] at hres
      rw [resolveCandidate, if_neg ?hhead]
      · exact ih hres
      case hhead =>
        intro h3
        apply h2
        have hNc : containsSub (toUpper N) (toUpper t) = true := by
          rw [← hres]
          exact resolveCandidate_contains (hres ▸ hN)
        exact containsSub_iff.2
          ((containsSub_iff.1 hNc).trans (containsSub_iff.1 h3))

/-- Witness for C9: resolving `a` yields `A`, and resolving `A` yields
`A` again. -/
theorem claim_C9_witness :
    resolveCandidate votesEx (toUpper ("A".toList)) = "A".toList :=
  claim_C9 votesEx ("a".toList) ("A".toList) (by decide) (by decide)

/-! ## Best-state selection -/

theorem pctOf_of_candVotes_eq_zero {u : Tally} (h : u.candVotes = 0) : pctOf u = 0 := by
  rw [pctOf, h]
  by_cases h0 : 0 < u.totalVotes
  · rw [if_pos h0]
    norm_num
  · rw [if_neg h0]

theorem bestFold_skip {b : ℚ} {s : Str} {t : Tally} (h : pctOf t ≤ b) :
    bestFold (b, s) t = (b, s) := by
  rw [bestFold]
  by_cases h0 : 0 < t.totalVotes
  · rw [if_pos h0, if_neg (not_lt.2 h)]
  · rw [if_neg h0]

theorem foldl_bestFold_of_le (table : List Tally) (b : ℚ) (s : Str)
    (hall : ∀ u ∈ table, pctOf u ≤ b) :
    table.foldl bestFold (b, s) = (b, s) := by
  induction table with
  | nil => rfl
  | cons t rest ih =>
    rw [List.foldl_cons, bestFold_skip (hall t (List.mem_cons_self _ _))]
    exact ih (fun u hu => hall u (List.mem_cons_of_mem _ hu))

theorem foldl_bestFold_of_exists (table : List Tally) :
    ∀ (b : ℚ) (s : Str), 0 ≤ b → (∃ u ∈ table, b < pctOf u) →
      ∃ pre t post, table = pre ++ t :: post
        ∧ table.foldl bestFold (b, s) = (pctOf t, t.stateName)
        ∧ b < pctOf t
        ∧ (∀ u ∈ table, pctOf u ≤ pctOf t)
        ∧ (∀ u ∈ pre, pctOf u < pctOf t) := by
  induction table with
  | nil =>
    rintro b s hb ⟨u, hu, _⟩
    exact absurd hu (List.not_mem_nil u)
  | cons t rest ih =>
    rintro b s hb hex
    by_cases hc : b < pctOf t
    · have h0 : 0 < t.totalVotes := by
        by_contra h0
        have hz : pctOf t = 0 := by rw [pctOf, if_neg h0]
        rw [hz] at hc
        exact absurd (lt_of_le_of_lt hb hc) (lt_irrefl 0)
      have step : bestFold (b, s) t = (pctOf t, t.stateName) := by
        rw [bestFold, if_pos h0, if_pos hc]
      rw [List.foldl_cons, step]
      by_cases hex2 : ∃ w ∈ rest, pctOf t < pctOf w
      · obtain ⟨pre, u, post, heq, hfold, hlt, hmax, hpre⟩ :=
          ih (pctOf t) t.stateName (le_of_lt (lt_of_le_of_lt hb hc)) hex2
        refine ⟨t :: pre, u, post, by rw [heq, List.cons_append], hfold, lt_trans hc hlt, ?_, ?_⟩
        · intro w hw
          rcases List.mem_cons.1 hw with rfl | hw
          · exact le_of_lt hlt
          · exact hmax w hw
        · intro w hw
          rcases List.mem_cons.1 hw with rfl | hw
          · exact hlt
          · exact hpre w hw
      · push_neg at hex2
        have hfold := foldl_bestFold_of_le rest (pctOf t) t.stateName hex2
        refine ⟨[], t, rest, rfl, hfold, hc, ?_,
          fun w hw => absurd hw (List.not_mem_nil w)⟩
        intro w hw
        rcases List.mem_cons.1 hw with rfl | hw
        · exact le_refl _
        · exact hex2 w hw
    · have hle : pctOf t ≤ b := not_lt.1 hc
      rw [List.foldl_cons, bestFold_skip hle]
      have hex2 : ∃ w ∈ rest, b < pctOf w := by
        obtain ⟨u, hu, hbu⟩ := hex
        rcases List.mem_cons.1 hu with rfl | hu'
        · exact absurd hbu hc
        · exact ⟨u, hu', hbu⟩
      obtain ⟨pre, u, post, heq, hfold, hlt, hmax, hpre⟩ := ih b s hb hex2
      refine ⟨t :: pre, u, post, by rw [heq, List.cons_append], hfold, hlt, ?_, ?_⟩
      · intro w hw
        rcases List.mem_cons.1 hw with rfl | hw
        · exact le_trans hle (le_of_lt hlt)
        · exact hmax w hw
      · intro w hw
        rcases List.mem_cons.1 hw with rfl | hw
        · exact lt_of_le_of_lt hle hlt
        · exact hpre w hw

/-- Counterexample to **C4** as stated: for a store holding one
`ALABAMA` record and a search term matching no candidate, the first
table entry `ALABAMA` has `totalVotes = 5 > 0` and every entry's
percentage is `0`, so the *earliest entry attaining the maximum
percentage* is `ALABAMA`; but the code returns the *empty* best-state
name, because `bestPercentage` starts at `0.0` and is only replaced by
a strictly larger percentage. -/
theorem claim_C4_counterexample :
    (buildStateTable [vAla] (resolveCandidate [vAla] (toUpper ("B".toList)))).head?
        = some ⟨"ALABAMA".toList, 0, 5⟩
    ∧ (0 : Int) < 5
    ∧ (∀ u ∈ buildStateTable [vAla] (resolveCandidate [vAla] (toUpper ("B".toList))),
        pctOf u = 0)
    ∧ (bestState (buildStateTable [vAla]
        (resolveCandidate [vAla] (toUpper ("B".toList))))).2 = []
    ∧ ([] : Str) ≠ "ALABAMA".toList := by
  have hz : ∀ u ∈ buildStateTable [vAla] (resolveCandidate [vAla] (toUpper ("B".toList))),
      u.candVotes = 0 := by decide
  have hpct : ∀ u ∈ buildStateTable [vAla] (resolveCandidate [vAla] (toUpper ("B".toList))),
      pctOf u = 0 := fun u hu => pctOf_of_candVotes_eq_zero (hz u hu)
  refine ⟨by decide, by decide, hpct, ?_, by decide⟩
  rw [bestState, foldl_bestFold_of_le _ 0 []
    (fun u hu => le_of_eq (hpct u hu))]

/-- **C4 (amended).** Whenever some jurisdiction's *percentage* is
strictly positive (rather than merely its `totalVotes`), the best
jurisdiction returned by `showCandidateResults` is the earliest table
entry attaining the maximum percentage, together with that maximum:
the comparison is strict, so the first occurrence wins ties.  (When
every percentage is `0` — for example when the search term resolves to
no candidate — the initial empty best-state name survives instead.) -/
theorem claim_C4_amended (votes : List Votes) (term : Str)
    (hpos : ∃ u ∈ buildStateTable votes (resolveCandidate votes (toUpper term)),
        0 < pctOf u) :
    ∃ pre t post,
      buildStateTable votes (resolveCandidate votes (toUpper term)) = pre ++ t :: post
      ∧ bestState (buildStateTable votes (resolveCandidate votes (toUpper term)))
          = (pctOf t, t.stateName)
      ∧ 0 < pctOf t
      ∧ (∀ u ∈ buildStateTable votes (resolveCandidate votes (toUpper term)),
          pctOf u ≤ pctOf t)
      ∧ (∀ u ∈ pre, pctOf u < pctOf t) :=
  foldl_bestFold_of_exists _ 0 [] (le_refl 0) hpos

/-- Witness for the amended C4: in the worked example the Ohio
percentage `250/3` is positive. -/
theorem claim_C4_amended_witness :
    ∃ pre t post,
      buildStateTable votesEx (resolveCandidate votesEx (toUpper ("a".toList)))
          = pre ++ t :: post
      ∧ bestState (buildStateTable votesEx (resolveCandidate votesEx (toUpper ("a".toList))))
          = (pctOf t, t.stateName)
      ∧ 0 < pctOf t
      ∧ (∀ u ∈ buildStateTable votesEx (resolveCandidate votesEx (toUpper ("a".toList))),
          pctOf u ≤ pctOf t)
      ∧ (∀ u ∈ pre, pctOf u < pctOf t) :=
  claim_C4_amended votesEx ("a".toList)
    ⟨tOhio, by decide, by rw [pctOf]; norm_num [tOhio]⟩

/-! ## The candidate ranking under the `std::sort` contract -/

/-- Counterexample to **C2** as stated: with two candidates tied at 5
votes, the reversed list `[B, A]` is an *admissible* result of the
`std::sort` call — it is a permutation of the accumulated summaries
and sorted for the comparator — yet `B` precedes `A` although `A`'s
first record occurs strictly earlier in the input.  `std::sort` fixes
only sortedness and permutation, not the tie order, so the program
does not guarantee the first-encounter tie-break the claim asserts for
every record list. -/
theorem claim_C2_counterexample :
    aggregateAdmissible votesTie [sTie2, sTie1]
    ∧ sTie1.totalVotes = sTie2.totalVotes
    ∧ firstRecordIdx votesTie sTie1.name < firstRecordIdx votesTie sTie2.name :=
  ⟨⟨by decide, by decide⟩, by decide, by decide⟩

/-- **C2 (amended).** The sequence returned by `getCandidateSummaries`
is an admissible `std::sort` result: a permutation of the accumulated
per-candidate totals that is sorted non-increasing by `totalVotes`.
The relative order of entries with equal totals is not specified by
the code (`std::sort` is not stable), so no tie-break ordering is
claimed of the program. -/
theorem claim_C2_amended (votes : List Votes) :
    aggregateAdmissible votes (getCandidateSummaries votes) :=
  ⟨List.perm_insertionSort summaryRel (accumulate votes),
    List.sorted_insertionSort summaryRel (accumulate votes)⟩

end Election

